import Mathlib

/-!
Verification of the range-to-CIDR decomposer in `range2cidr.go`.

The Go function `Range2CIDRs(startIP, endIP net.IP)` is embedded shallowly:
IP addresses (`net.IP` byte slices, where a Go `nil` slice is modelled as
`Option.none`) become `Option (List Nat)`, `math/big` integers become `Nat`,
and the main `for` loop becomes a fuel-indexed recursion whose fuel,
`end + 1 - start`, is an upper bound on the number of iterations (each
iteration advances `start` by at least one).  Emitted CIDR blocks are pairs
`(networkAddress, prefixLength)`.
-/

namespace Range2Cidr

/-- Value of a big-endian byte sequence, as in `big.Int.SetBytes`. -/
def bytesToNat (bs : List Nat) : Nat :=
  bs.foldl (fun a b => 256 * a + b) 0

/-- `isZeros` from Go's `net` package: all bytes are zero. -/
def isZeros (bs : List Nat) : Bool :=
  bs.all (fun b => b == 0)

/-- `net.IP.To4`: a 4-byte address is returned unchanged; a 16-byte address
with the IPv4-in-IPv6 prefix (ten zero bytes then `0xff 0xff`) is shortened
to its last 4 bytes; anything else yields Go `nil` (here `none`). -/
def to4 (ip : List Nat) : Option (List Nat) :=
  if ip.length = 4 then some ip
  else if ip.length = 16 ∧ isZeros (ip.take 10) ∧ ip.getD 10 0 = 255 ∧ ip.getD 11 0 = 255 then
    some (ip.drop 12)
  else none

/-- `net.IP.To16`: a 4-byte address is widened with the IPv4-in-IPv6 prefix,
a 16-byte address is returned unchanged, anything else yields `nil`. -/
def to16 (ip : List Nat) : Option (List Nat) :=
  if ip.length = 4 then some ([0, 0, 0, 0, 0, 0, 0, 0, 0, 0, 255, 255] ++ ip)
  else if ip.length = 16 then some ip
  else none

/-- `standardizeIP` from `range2cidr.go`: prefer the 4-byte form, otherwise
fall back to `To16` (which may itself be `nil`). -/
def standardizeIP (ip : List Nat) : Option (List Nat) :=
  match to4 ip with
  | some v4 => some v4
  | none => to16 ip

/-- Go `len` of a possibly-`nil` byte slice (`len(nil) = 0`). -/
def ipLen (ip : Option (List Nat)) : Nat :=
  (ip.getD []).length

/-- `big.Int.SetBytes` of a possibly-`nil` byte slice (`SetBytes(nil) = 0`). -/
def setBytesOpt (ip : Option (List Nat)) : Nat :=
  bytesToNat (ip.getD [])

/-- The three error returns of `Range2CIDRs`, in source order:
invalid input (`nil` argument), IP version mismatch, inverted range. -/
inductive Err where
  | invalidInput
  | familyMismatch
  | invertedRange
  deriving DecidableEq

/-- The first inner loop of `Range2CIDRs`:
`maxSize := 0; for i := 0; i < maxLen; i++ { if 1<<i > diff { break }; maxSize = i }`.
`fuel` counts the iterations left (initially `maxLen`), `i` is the loop
counter and `acc` the current `maxSize`. -/
def findMaxSize : Nat → Nat → Nat → Nat → Nat
  | 0, _, _, acc => acc
  | fuel + 1, i, diff, acc => if diff < 2 ^ i then acc else findMaxSize fuel (i + 1) diff i

/-- `new(big.Int).And(startInt, new(big.Int).Not(mask))` for `mask = 2^k - 1`:
clearing the low `k` bits. -/
def clearLow (n k : Nat) : Nat :=
  (n >>> k) <<< k

/-- The break condition of the second inner loop of `Range2CIDRs`:
the network start (low `i` bits of `start` cleared) equals `start` itself,
and the network end `start | (2^i - 1)` does not exceed `endInt`. -/
def alignedFit (s e i : Nat) : Prop :=
  clearLow s i = s ∧ s ||| (2 ^ i - 1) ≤ e

instance (s e i : Nat) : Decidable (alignedFit s e i) := by
  unfold alignedFit; infer_instance

/-- The second inner loop of `Range2CIDRs`:
`for i := maxSize; i >= 0; i-- { if aligned and contained { maxSize = i; break } }`.
It scans `i` downward from `m0` and keeps `m0` if no candidate satisfies the
condition (which cannot happen while `start ≤ endInt`, since `i = 0` always
does). -/
def refineSize (s e m0 : Nat) : Nat → Nat
  | 0 => if alignedFit s e 0 then 0 else m0
  | i + 1 => if alignedFit s e (i + 1) then i + 1 else refineSize s e m0 i

/-- One iteration's block-size exponent: the first inner loop followed by the
second, exactly as in the body of the main loop of `Range2CIDRs`
(`diff = endInt - startInt + 1`). -/
def pickSize (w s e : Nat) : Nat :=
  refineSize s e (findMaxSize w 0 (e + 1 - s) 0) (findMaxSize w 0 (e + 1 - s) 0)

/-- The main loop `for startInt.Cmp(endInt) <= 0 { ... }` of `Range2CIDRs`,
with an explicit iteration budget `fuel`.  Each iteration emits the block
`(startInt, maxLen - maxSize)` and advances `startInt` by `2^maxSize`. -/
def loopAux : Nat → Nat → Nat → Nat → List (Nat × Nat)
  | 0, _, _, _ => []
  | fuel + 1, w, s, e =>
    if s ≤ e then
      (s, w - pickSize w s e) :: loopAux fuel w (s + 2 ^ pickSize w s e) e
    else []

/-- The main loop run to completion: `end + 1 - start` iterations always
suffice because each iteration advances `start` by at least `1`. -/
def rangeBlocks (w s e : Nat) : List (Nat × Nat) :=
  loopAux (e + 1 - s) w s e

/-- `Range2CIDRs` from `range2cidr.go`: `nil` check, standardization, length
(family) check, big-integer conversion, range check, then the main loop with
`maxLen = len(startIP) * 8`. -/
def Range2CIDRs (startIP0 endIP0 : Option (List Nat)) : Except Err (List (Nat × Nat)) :=
  match startIP0, endIP0 with
  | some sIn, some eIn =>
    if ipLen (standardizeIP sIn) ≠ ipLen (standardizeIP eIn) then
      Except.error Err.familyMismatch
    else if setBytesOpt (standardizeIP eIn) < setBytesOpt (standardizeIP sIn) then
      Except.error Err.invertedRange
    else
      Except.ok (rangeBlocks (ipLen (standardizeIP sIn) * 8)
        (setBytesOpt (standardizeIP sIn)) (setBytesOpt (standardizeIP eIn)))
  | _, _ => Except.error Err.invalidInput

/-- Last address of a CIDR block `(networkAddress, prefixLength)` at width
`w`: `networkAddress + 2^(w - prefixLength) - 1`. -/
def blockLast (w : Nat) (blk : Nat × Nat) : Nat :=
  blk.1 + 2 ^ (w - blk.2) - 1

/-- Membership of an address in a CIDR block's address set. -/
def inBlock (w : Nat) (blk : Nat × Nat) (a : Nat) : Prop :=
  blk.1 ≤ a ∧ a ≤ blockLast w blk

/-- Two blocks have no address in common. -/
def noOverlap (w : Nat) (x y : Nat × Nat) : Prop :=
  ∀ a : Nat, ¬(inBlock w x a ∧ inBlock w y a)

/-- A block list tiles the interval `[s, e]` left to right: each block is
rooted at the current position, is aligned, stays inside `[s, e]`, has a
prefix length in `[1, w]` (or `0` when `w = 0`), and the rest tiles the
remainder. -/
def isTiling (w : Nat) : Nat → Nat → List (Nat × Nat) → Prop
  | s, e, [] => e < s
  | s, e, (b, p) :: rest =>
    b = s ∧ p ≤ w ∧ (w = 0 ∨ 1 ≤ p) ∧ 2 ^ (w - p) ∣ s ∧
      s + 2 ^ (w - p) - 1 ≤ e ∧ isTiling w (s + 2 ^ (w - p)) e rest

/-- The fixed-width big-endian byte encoding of an integer, as produced for
each emitted block by `startInt.FillBytes(make([]byte, len(startIP)))`. -/
def intToBytes (len n : Nat) : List Nat :=
  (List.range len).map (fun i => n / 256 ^ (len - 1 - i) % 256)

/-! Arithmetic facts about the bit-level primitives used by the loop body. -/

theorem clearLow_eq (n k : Nat) : clearLow n k = n / 2 ^ k * 2 ^ k := by
  unfold clearLow
  rw [Nat.shiftRight_eq_div_pow, Nat.shiftLeft_eq]

theorem clearLow_eq_self_iff (s i : Nat) : clearLow s i = s ↔ 2 ^ i ∣ s := by
  rw [clearLow_eq]
  constructor
  · intro h
    exact Dvd.intro_left (s / 2 ^ i) h
  · intro h
    exact Nat.div_mul_cancel h

theorem lor_eq_add_of_dvd {i a b : Nat} (ha : 2 ^ i ∣ a) (hb : b < 2 ^ i) :
    a ||| b = a + b := by
  obtain ⟨q, hq⟩ := ha
  subst hq
  apply Nat.eq_of_testBit_eq
  intro j
  rw [Nat.testBit_lor, Nat.testBit_mul_pow_two_add q hb j]
  have h0 : (2 ^ i * q).testBit j = if j < i then false else q.testBit (j - i) := by
    have h := Nat.testBit_mul_pow_two_add q (b := 0) (Nat.two_pow_pos i) j
    simpa using h
  rw [h0]
  by_cases hj : j < i
  · simp [hj]
  · have hbj : b.testBit j = false :=
      Nat.testBit_lt_two_pow
        (lt_of_lt_of_le hb (Nat.pow_le_pow_right (by norm_num) (by omega)))
    simp [hj, hbj]

theorem lor_mask_eq {i s : Nat} (hs : 2 ^ i ∣ s) :
    s ||| (2 ^ i - 1) = s + (2 ^ i - 1) :=
  lor_eq_add_of_dvd hs (by have := Nat.two_pow_pos i; omega)

/-- The break condition of the second inner loop, in purely arithmetic form:
`start` is a multiple of `2^i` and the block of `2^i` addresses rooted at
`start` ends at or before `endInt`. -/
theorem alignedFit_iff (s e i : Nat) :
    alignedFit s e i ↔ 2 ^ i ∣ s ∧ s + 2 ^ i ≤ e + 1 := by
  unfold alignedFit
  constructor
  · rintro ⟨h1, h2⟩
    have hd := (clearLow_eq_self_iff s i).mp h1
    rw [lor_mask_eq hd] at h2
    have := Nat.two_pow_pos i
    exact ⟨hd, by omega⟩
  · rintro ⟨hd, hle⟩
    refine ⟨(clearLow_eq_self_iff s i).mpr hd, ?_⟩
    rw [lor_mask_eq hd]
    have := Nat.two_pow_pos i
    omega

/-! Properties of the first inner loop (`findMaxSize`). -/

theorem findMaxSize_ge_acc :
    ∀ fuel i diff acc, acc ≤ i → acc ≤ findMaxSize fuel i diff acc := by
  intro fuel
  induction fuel with
  | zero => intro i diff acc _; simp [findMaxSize]
  | succ fuel ih =>
    intro i diff acc hacc
    unfold findMaxSize
    by_cases h : diff < 2 ^ i
    · simp [h]
    · simp only [h, if_false]
      exact le_trans hacc (ih (i + 1) diff i (Nat.le_succ i))

theorem findMaxSize_le :
    ∀ fuel i diff acc k, acc ≤ k → i + fuel ≤ k + 1 → findMaxSize fuel i diff acc ≤ k := by
  intro fuel
  induction fuel with
  | zero => intro i diff acc k hacc _; simpa [findMaxSize] using hacc
  | succ fuel ih =>
    intro i diff acc k hacc hik
    unfold findMaxSize
    by_cases h : diff < 2 ^ i
    · simp [h, hacc]
    · simp only [h, if_false]
      exact ih (i + 1) diff i k (by omega) (by omega)

theorem findMaxSize_ge :
    ∀ fuel i diff acc k, acc ≤ i → i ≤ k → k < i + fuel → 2 ^ k ≤ diff →
      k ≤ findMaxSize fuel i diff acc := by
  intro fuel
  induction fuel with
  | zero => intro i diff acc k _ _ h _; omega
  | succ fuel ih =>
    intro i diff acc k hacc hik hfuel hk
    unfold findMaxSize
    have hno : ¬ diff < 2 ^ i := by
      have : (2 : Nat) ^ i ≤ 2 ^ k := Nat.pow_le_pow_right (by norm_num) hik
      omega
    simp only [hno, if_false]
    rcases Nat.eq_or_lt_of_le hik with heq | hlt
    · subst heq
      exact findMaxSize_ge_acc fuel (i + 1) diff i (Nat.le_succ i)
    · exact ih (i + 1) diff i k (Nat.le_succ i) hlt (by omega) hk

theorem findMaxSize_pow_le :
    ∀ fuel i diff acc, 2 ^ acc ≤ diff → 2 ^ findMaxSize fuel i diff acc ≤ diff := by
  intro fuel
  induction fuel with
  | zero => intro i diff acc h; simpa [findMaxSize] using h
  | succ fuel ih =>
    intro i diff acc h
    unfold findMaxSize
    by_cases hlt : diff < 2 ^ i
    · simpa [hlt] using h
    · simp only [hlt, if_false]
      exact ih (i + 1) diff i (by omega)

/-! Properties of the second inner loop (`refineSize`). -/

theorem refineSize_sat :
    ∀ j s e m0, s ≤ e → alignedFit s e (refineSize s e m0 j) := by
  intro j
  induction j with
  | zero =>
    intro s e m0 hse
    have h0 : alignedFit s e 0 := by
      rw [alignedFit_iff]
      exact ⟨Nat.one_dvd s, by omega⟩
    unfold refineSize
    rw [if_pos h0]
    exact h0
  | succ j ih =>
    intro s e m0 hse
    unfold refineSize
    by_cases h : alignedFit s e (j + 1)
    · rw [if_pos h]
      exact h
    · rw [if_neg h]
      exact ih s e m0 hse

theorem refineSize_le :
    ∀ j s e m0, refineSize s e m0 j ≤ max m0 j := by
  intro j
  induction j with
  | zero => intro s e m0; unfold refineSize; split <;> omega
  | succ j ih =>
    intro s e m0
    unfold refineSize
    split
    · omega
    · have := ih s e m0
      omega

theorem refineSize_ge :
    ∀ j s e m0 k, k ≤ j → alignedFit s e k → k ≤ refineSize s e m0 j := by
  intro j
  induction j with
  | zero =>
    intro s e m0 k hk hsat
    have hk0 : k = 0 := by omega
    subst hk0
    simp [refineSize, hsat]
  | succ j ih =>
    intro s e m0 k hk hsat
    unfold refineSize
    by_cases h : alignedFit s e (j + 1)
    · simp only [h, if_true]; omega
    · have hkj : k ≤ j := by
        rcases Nat.eq_or_lt_of_le hk with heq | hlt
        · exact absurd (heq ▸ hsat) h
        · omega
      simpa [h] using ih s e m0 k hkj hsat

/-! Properties of the combined block-size choice (`pickSize`). -/

theorem pickSize_sat {w s e : Nat} (hse : s ≤ e) : alignedFit s e (pickSize w s e) :=
  refineSize_sat _ s e _ hse

theorem pickSize_dvd {w s e : Nat} (hse : s ≤ e) : 2 ^ pickSize w s e ∣ s :=
  ((alignedFit_iff s e _).mp (pickSize_sat hse)).1

theorem pickSize_fit {w s e : Nat} (hse : s ≤ e) : s + 2 ^ pickSize w s e ≤ e + 1 :=
  ((alignedFit_iff s e _).mp (pickSize_sat hse)).2

theorem pickSize_le_pred {w s e : Nat} (hw : 1 ≤ w) : pickSize w s e ≤ w - 1 := by
  unfold pickSize
  have hm0 : findMaxSize w 0 (e + 1 - s) 0 ≤ w - 1 :=
    findMaxSize_le w 0 (e + 1 - s) 0 (w - 1) (by omega) (by omega)
  have := refineSize_le (findMaxSize w 0 (e + 1 - s) 0) s e (findMaxSize w 0 (e + 1 - s) 0)
  omega

theorem pickSize_le_width (w s e : Nat) : pickSize w s e ≤ w := by
  rcases Nat.eq_zero_or_pos w with hw | hw
  · subst hw
    unfold pickSize
    have h0 : findMaxSize 0 0 (e + 1 - s) 0 = 0 := rfl
    rw [h0]
    have := refineSize_le 0 s e 0
    omega
  · have := pickSize_le_pred (w := w) (s := s) (e := e) hw
    omega

theorem pickSize_ge {w s e k : Nat} (hse : s ≤ e) (hkw : k < w) (hd : 2 ^ k ∣ s)
    (hfit : s + 2 ^ k ≤ e + 1) : k ≤ pickSize w s e := by
  unfold pickSize
  have hkm0 : k ≤ findMaxSize w 0 (e + 1 - s) 0 :=
    findMaxSize_ge w 0 (e + 1 - s) 0 k (le_refl 0) (Nat.zero_le k) (by omega) (by omega)
  exact refineSize_ge _ s e _ k hkm0 ((alignedFit_iff s e k).mpr ⟨hd, hfit⟩)

/-! The main loop: termination-insensitivity in the fuel, one-step unfolding,
and the tiling invariant. -/

theorem loopAux_of_gt {w s e : Nat} (h : e < s) : ∀ fuel, loopAux fuel w s e = [] := by
  intro fuel
  cases fuel with
  | zero => rfl
  | succ fuel =>
    unfold loopAux
    rw [if_neg (by omega)]

theorem loopAux_fuel_irrel :
    ∀ f1 f2 w s e, e + 1 - s ≤ f1 → e + 1 - s ≤ f2 →
      loopAux f1 w s e = loopAux f2 w s e := by
  intro f1
  induction f1 with
  | zero =>
    intro f2 w s e h1 _
    have hgt : e < s := by omega
    rw [loopAux_of_gt hgt, loopAux_of_gt hgt]
  | succ f1 ih =>
    intro f2 w s e h1 h2
    by_cases hse : s ≤ e
    · cases f2 with
      | zero => omega
      | succ f2 =>
        unfold loopAux
        rw [if_pos hse, if_pos hse]
        have hp := Nat.two_pow_pos (pickSize w s e)
        have := ih f2 w (s + 2 ^ pickSize w s e) e (by omega) (by omega)
        rw [this]
    · rw [loopAux_of_gt (by omega), loopAux_of_gt (by omega)]

theorem rangeBlocks_of_gt {w s e : Nat} (h : e < s) : rangeBlocks w s e = [] := by
  unfold rangeBlocks
  exact loopAux_of_gt h _

theorem loopAux_succ (fuel w s e : Nat) :
    loopAux (fuel + 1) w s e =
      if s ≤ e then
        (s, w - pickSize w s e) :: loopAux fuel w (s + 2 ^ pickSize w s e) e
      else [] := rfl

theorem rangeBlocks_cons {w s e : Nat} (hse : s ≤ e) :
    rangeBlocks w s e =
      (s, w - pickSize w s e) :: rangeBlocks w (s + 2 ^ pickSize w s e) e := by
  unfold rangeBlocks
  have hf : e + 1 - s = (e - s) + 1 := by omega
  rw [hf, loopAux_succ, if_pos hse]
  have hp := Nat.two_pow_pos (pickSize w s e)
  rw [loopAux_fuel_irrel (e - s) (e + 1 - (s + 2 ^ pickSize w s e)) w
    (s + 2 ^ pickSize w s e) e (by omega) (by omega)]

theorem rangeBlocks_tiling :
    ∀ r w s e, e + 1 - s ≤ r → isTiling w s e (rangeBlocks w s e) := by
  intro r
  induction r with
  | zero =>
    intro w s e h
    have hgt : e < s := by omega
    rw [rangeBlocks_of_gt hgt]
    simpa [isTiling] using hgt
  | succ r ih =>
    intro w s e h
    by_cases hse : s ≤ e
    · rw [rangeBlocks_cons hse]
      have hle := pickSize_le_width w s e
      have hm : w - (w - pickSize w s e) = pickSize w s e := by omega
      have hp := Nat.two_pow_pos (pickSize w s e)
      have hfit := pickSize_fit (w := w) hse
      refine ⟨rfl, Nat.sub_le w _, ?_, ?_, ?_, ?_⟩
      · rcases Nat.eq_zero_or_pos w with hw | hw
        · exact Or.inl hw
        · have := pickSize_le_pred (w := w) (s := s) (e := e) hw
          exact Or.inr (by omega)
      · rw [hm]
        exact pickSize_dvd hse
      · rw [hm]
        omega
      · rw [hm]
        exact ih w (s + 2 ^ pickSize w s e) e (by omega)
    · rw [rangeBlocks_of_gt (by omega)]
      simpa [isTiling] using (by omega : e < s)

/-! Consequences of the tiling invariant: coverage, disjointness, ordering,
alignment. -/

theorem isTiling_mem_lb {w e : Nat} :
    ∀ l s, isTiling w s e l → ∀ blk ∈ l, s ≤ blk.1 := by
  intro l
  induction l with
  | nil => intro s _ blk hblk; cases hblk
  | cons hd rest ih =>
    intro s hT blk hblk
    obtain ⟨b, p⟩ := hd
    obtain ⟨hb, -, -, -, -, hrest⟩ := hT
    rcases List.mem_cons.mp hblk with hEq | hmem
    · subst hEq; omega
    · have hp := Nat.two_pow_pos (w - p)
      have := ih (s + 2 ^ (w - p)) hrest blk hmem
      omega

theorem isTiling_cover {w e : Nat} :
    ∀ l s, isTiling w s e l →
      ∀ a, (∃ blk ∈ l, inBlock w blk a) ↔ (s ≤ a ∧ a ≤ e) := by
  intro l
  induction l with
  | nil =>
    intro s hT a
    simp only [List.not_mem_nil, false_and, exists_const, exists_false, false_iff]
    simp only [isTiling] at hT
    omega
  | cons hd rest ih =>
    intro s hT a
    obtain ⟨b, p⟩ := hd
    obtain ⟨hb, -, -, -, hlast, hrest⟩ := hT
    subst hb
    have hp := Nat.two_pow_pos (w - p)
    have ihrest := ih (b + 2 ^ (w - p)) hrest a
    constructor
    · rintro ⟨blk, hmem, hin⟩
      rcases List.mem_cons.mp hmem with hEq | hmem2
      · subst hEq
        simp only [inBlock, blockLast] at hin
        omega
      · have := ihrest.mp ⟨blk, hmem2, hin⟩
        omega
    · rintro ⟨h1, h2⟩
      by_cases ha : a ≤ b + 2 ^ (w - p) - 1
      · exact ⟨(b, p), List.mem_cons_self _ _, by simp only [inBlock, blockLast]; omega⟩
      · obtain ⟨blk, hmem, hin⟩ := ihrest.mpr (by omega)
        exact ⟨blk, List.mem_cons_of_mem _ hmem, hin⟩

theorem isTiling_disjoint {w e : Nat} :
    ∀ l s, isTiling w s e l → List.Pairwise (noOverlap w) l := by
  intro l
  induction l with
  | nil => intro s _; exact List.Pairwise.nil
  | cons hd rest ih =>
    intro s hT
    obtain ⟨b, p⟩ := hd
    obtain ⟨hb, -, -, -, hlast, hrest⟩ := hT
    subst hb
    refine List.Pairwise.cons ?_ (ih _ hrest)
    intro y hy
    intro a ⟨hin1, hin2⟩
    simp only [inBlock, blockLast] at hin1
    have h2 := (isTiling_cover rest _ hrest a).mp ⟨y, hy, hin2⟩
    have hp := Nat.two_pow_pos (w - p)
    omega

theorem isTiling_ascending {w e : Nat} :
    ∀ l s, isTiling w s e l → List.Pairwise (fun x y : Nat × Nat => x.1 < y.1) l := by
  intro l
  induction l with
  | nil => intro s _; exact List.Pairwise.nil
  | cons hd rest ih =>
    intro s hT
    obtain ⟨b, p⟩ := hd
    obtain ⟨hb, -, -, -, hlast, hrest⟩ := hT
    subst hb
    refine List.Pairwise.cons ?_ (ih _ hrest)
    intro y hy
    have hp := Nat.two_pow_pos (w - p)
    have := isTiling_mem_lb rest _ hrest y hy
    simp only []
    omega

theorem isTiling_aligned {w e : Nat} :
    ∀ l s, isTiling w s e l →
      ∀ blk ∈ l, blk.2 ≤ w ∧ (w = 0 ∨ 1 ≤ blk.2) ∧ 2 ^ (w - blk.2) ∣ blk.1 := by
  intro l
  induction l with
  | nil => intro s _ blk hblk; cases hblk
  | cons hd rest ih =>
    intro s hT blk hblk
    obtain ⟨b, p⟩ := hd
    obtain ⟨hb, hpw, hp1, hdvd, -, hrest⟩ := hT
    rcases List.mem_cons.mp hblk with hEq | hmem
    · subst hEq
      exact ⟨hpw, hp1, by rw [hb]; exact hdvd⟩
    · exact ih _ hrest blk hmem

/-! Decomposing a single aligned block, and bounds on the number of emitted
blocks. -/

theorem rangeBlocks_single {w b k : Nat} (hk : k < w ∨ (k = 0 ∧ w = 0))
    (hd : 2 ^ k ∣ b) :
    rangeBlocks w b (b ||| (2 ^ k - 1)) = [(b, w - k)] := by
  have hp := Nat.two_pow_pos k
  rw [lor_mask_eq hd]
  have hse : b ≤ b + (2 ^ k - 1) := by omega
  have hm : pickSize w b (b + (2 ^ k - 1)) = k := by
    have hfitm := pickSize_fit (w := w) hse
    have hub : (2 : Nat) ^ pickSize w b (b + (2 ^ k - 1)) ≤ 2 ^ k := by omega
    have hle : pickSize w b (b + (2 ^ k - 1)) ≤ k :=
      (Nat.pow_le_pow_iff_right (by norm_num)).mp hub
    rcases hk with hkw | ⟨hk0, hw0⟩
    · have hge : k ≤ pickSize w b (b + (2 ^ k - 1)) :=
        pickSize_ge hse hkw hd (by omega)
      omega
    · omega
  rw [rangeBlocks_cons hse, hm, rangeBlocks_of_gt (by omega)]

theorem length_le_of_fit :
    ∀ k w s e, 1 ≤ w → s ≤ e → e + 1 ≤ s + 2 ^ k → 2 ^ k ∣ s → k < w →
      (rangeBlocks w s e).length ≤ k + 1 := by
  intro k
  induction k using Nat.strong_induction_on with
  | _ k ih =>
    intro w s e hw hse hfit hd hkw
    have hpk := Nat.two_pow_pos k
    rw [rangeBlocks_cons hse, List.length_cons]
    have hpm := Nat.two_pow_pos (pickSize w s e)
    have hfitm := pickSize_fit (w := w) hse
    have hdm := pickSize_dvd (w := w) hse
    have hmk : pickSize w s e ≤ k := by
      apply (Nat.pow_le_pow_iff_right (show (1 : Nat) < 2 by norm_num)).mp
      omega
    by_cases hs' : e < s + 2 ^ pickSize w s e
    · rw [rangeBlocks_of_gt hs']
      simp
    · push_neg at hs'
      have hmltk : pickSize w s e < k := by
        rcases Nat.eq_or_lt_of_le hmk with hEq | h
        · exfalso
          have h2 : (2 : Nat) ^ pickSize w s e = 2 ^ k := by rw [hEq]
          omega
        · exact h
      have hd' : 2 ^ pickSize w s e ∣ s + 2 ^ pickSize w s e :=
        Nat.dvd_add (dvd_trans (pow_dvd_pow 2 hmk) hd) dvd_rfl
      have hnofit : e + 1 ≤ s + 2 ^ pickSize w s e + 2 ^ pickSize w s e := by
        by_contra hc
        push_neg at hc
        have hd1 : 2 ^ (pickSize w s e + 1) ∣ s :=
          dvd_trans (pow_dvd_pow 2 (by omega)) hd
        have := pickSize_ge hse (show pickSize w s e + 1 < w by omega) hd1
          (by rw [pow_succ]; omega)
        omega
      have htail := ih (pickSize w s e) hmltk w (s + 2 ^ pickSize w s e) e hw hs'
        (by omega) hd' (by omega)
      omega

theorem length_le_main :
    ∀ R w s e a, e + 1 - s ≤ R → s ≤ e → e < 2 ^ w → 2 ^ a ∣ s → a < w →
      (rangeBlocks w s e).length ≤ (w - a) + w := by
  intro R
  induction R with
  | zero => intro w s e a h hse _ _ _; omega
  | succ R ih =>
    intro w s e a hR hse hew hda haw
    have hw : 1 ≤ w := by omega
    have hpa := Nat.two_pow_pos a
    by_cases hcase : e + 1 ≤ s + 2 ^ a
    · have := length_le_of_fit a w s e hw hse hcase hda haw
      omega
    · push_neg at hcase
      have hpm := Nat.two_pow_pos (pickSize w s e)
      have hfitm := pickSize_fit (w := w) hse
      have hdm := pickSize_dvd (w := w) hse
      have hma : a ≤ pickSize w s e := pickSize_ge hse haw hda (by omega)
      have hmw : pickSize w s e ≤ w - 1 := pickSize_le_pred hw
      rw [rangeBlocks_cons hse, List.length_cons]
      by_cases hs' : e < s + 2 ^ pickSize w s e
      · rw [rangeBlocks_of_gt hs']
        simp
        omega
      · push_neg at hs'
        have hd' : 2 ^ pickSize w s e ∣ s + 2 ^ pickSize w s e := Nat.dvd_add hdm dvd_rfl
        by_cases hfit1 : e + 1 ≤ s + 2 ^ pickSize w s e + 2 ^ pickSize w s e
        · have htail := length_le_of_fit (pickSize w s e) w (s + 2 ^ pickSize w s e) e hw
            hs' (by omega) hd' (by omega)
          omega
        · push_neg at hfit1
          by_cases hm1w : pickSize w s e + 1 < w
          · have hnd : ¬ 2 ^ (pickSize w s e + 1) ∣ s := by
              intro hdd
              have := pickSize_ge hse hm1w hdd (by rw [pow_succ]; omega)
              omega
            obtain ⟨q, hq⟩ := hdm
            have hqodd : ¬ 2 ∣ q := by
              intro h2q
              apply hnd
              obtain ⟨c, hc⟩ := h2q
              refine ⟨c, ?_⟩
              have h1 : (2 : Nat) ^ (pickSize w s e + 1) * c = 2 ^ pickSize w s e * q := by
                rw [hc, pow_succ]; ring
              rw [h1]
              exact hq
            have hdnext : 2 ^ (pickSize w s e + 1) ∣ s + 2 ^ pickSize w s e := by
              have hq1 : 2 ∣ q + 1 := by
                rcases Nat.mod_two_eq_zero_or_one q with h0 | h1
                · exact absurd (Nat.dvd_of_mod_eq_zero h0) hqodd
                · exact Nat.dvd_of_mod_eq_zero (by omega)
              obtain ⟨c, hc⟩ := hq1
              refine ⟨c, ?_⟩
              have h1 : s + 2 ^ pickSize w s e = 2 ^ pickSize w s e * (q + 1) := by
                rw [Nat.mul_add, Nat.mul_one, ← hq]
              rw [h1, hc, pow_succ]
              ring
            have htail := ih w (s + 2 ^ pickSize w s e) e (pickSize w s e + 1)
              (by omega) hs' hew hdnext hm1w
            omega
          · have hm1 : pickSize w s e + 1 = w := by omega
            have hpw : (2 : Nat) ^ w = 2 ^ pickSize w s e * 2 := by
              rw [← pow_succ, hm1]
            have htail := length_le_of_fit (pickSize w s e) w (s + 2 ^ pickSize w s e) e hw
              hs' (by omega) hd' (by omega)
            omega

/-- Inversion of a successful run of `Range2CIDRs`: the standardized widths
agree, the numeric range is not inverted, and the result is the main loop's
output on the standardized integer range. -/
theorem range2cidrs_ok_inv {sIn eIn : List Nat} {bs : List (Nat × Nat)}
    (h : Range2CIDRs (some sIn) (some eIn) = Except.ok bs) :
    ipLen (standardizeIP sIn) = ipLen (standardizeIP eIn) ∧
      setBytesOpt (standardizeIP sIn) ≤ setBytesOpt (standardizeIP eIn) ∧
      bs = rangeBlocks (ipLen (standardizeIP sIn) * 8) (setBytesOpt (standardizeIP sIn))
        (setBytesOpt (standardizeIP eIn)) := by
  replace h : (if ipLen (standardizeIP sIn) ≠ ipLen (standardizeIP eIn) then
      (Except.error Err.familyMismatch : Except Err (List (Nat × Nat)))
    else if setBytesOpt (standardizeIP eIn) < setBytesOpt (standardizeIP sIn) then
      Except.error Err.invertedRange
    else
      Except.ok (rangeBlocks (ipLen (standardizeIP sIn) * 8)
        (setBytesOpt (standardizeIP sIn)) (setBytesOpt (standardizeIP eIn)))) =
      Except.ok bs := h
  by_cases hlen : ipLen (standardizeIP sIn) = ipLen (standardizeIP eIn)
  · rw [if_neg (by simp [hlen])] at h
    by_cases hcmp : setBytesOpt (standardizeIP eIn) < setBytesOpt (standardizeIP sIn)
    · rw [if_pos hcmp] at h
      exact Except.noConfusion h
    · rw [if_neg hcmp] at h
      exact ⟨hlen, by omega, (Except.ok.inj h).symm⟩
  · rw [if_pos hlen] at h
    exact Except.noConfusion h

/-! Byte encodings: the fold computing `SetBytes`, the fixed-width encoding
`intToBytes`, and their round trip. -/

theorem ipLen_some (l : List Nat) : ipLen (some l) = l.length := rfl

theorem setBytesOpt_some (l : List Nat) : setBytesOpt (some l) = bytesToNat l := rfl

theorem pow256_eq_two_pow (L : Nat) : (256 : Nat) ^ L = 2 ^ (L * 8) := by
  rw [show (256 : Nat) = 2 ^ 8 from rfl, ← pow_mul, Nat.mul_comm 8 L]

theorem bytesToNat_base :
    ∀ (bs : List Nat) (a : Nat),
      List.foldl (fun x y => 256 * x + y) a bs = a * 256 ^ bs.length + bytesToNat bs := by
  intro bs
  induction bs with
  | nil => intro a; simp [bytesToNat]
  | cons b bs ih =>
    intro a
    simp only [List.foldl_cons]
    rw [ih]
    have hrhs : bytesToNat (b :: bs) = (256 * 0 + b) * 256 ^ bs.length + bytesToNat bs := by
      show List.foldl (fun x y => 256 * x + y) (256 * 0 + b) bs =
        (256 * 0 + b) * 256 ^ bs.length + bytesToNat bs
      exact ih (256 * 0 + b)
    rw [hrhs, List.length_cons, pow_succ]
    ring

theorem bytesToNat_cons (b : Nat) (bs : List Nat) :
    bytesToNat (b :: bs) = b * 256 ^ bs.length + bytesToNat bs := by
  have h : bytesToNat (b :: bs) = (256 * 0 + b) * 256 ^ bs.length + bytesToNat bs := by
    show List.foldl (fun x y => 256 * x + y) (256 * 0 + b) bs =
      (256 * 0 + b) * 256 ^ bs.length + bytesToNat bs
    exact bytesToNat_base bs (256 * 0 + b)
  rw [h]
  ring

theorem intToBytes_length (len n : Nat) : (intToBytes len n).length = len := by
  simp [intToBytes]

theorem div_pow_mod_split (n a b : Nat) (hab : a ≤ b) :
    n / 256 ^ a = 256 ^ (b - a) * (n / 256 ^ b) + (n % 256 ^ b) / 256 ^ a := by
  conv_lhs => rw [← Nat.div_add_mod n (256 ^ b)]
  rw [show (256 : Nat) ^ b = 256 ^ a * 256 ^ (b - a) by rw [← pow_add]; congr 1; omega]
  rw [Nat.mul_assoc, Nat.mul_add_div (pow_pos (by norm_num) a)]

theorem intToBytes_succ (len n : Nat) :
    intToBytes (len + 1) n = (n / 256 ^ len % 256) :: intToBytes len (n % 256 ^ len) := by
  unfold intToBytes
  rw [List.range_succ_eq_map, List.map_cons, List.map_map]
  congr 1
  apply List.map_congr_left
  intro j hj
  have hjlen : j < len := List.mem_range.mp hj
  simp only [Function.comp_apply]
  have hexp : len + 1 - 1 - (j + 1) = len - 1 - j := by omega
  rw [hexp, div_pow_mod_split n (len - 1 - j) len (by omega)]
  have hY : (256 : Nat) ^ (len - (len - 1 - j)) =
      256 * 256 ^ (len - (len - 1 - j) - 1) := by
    rw [← pow_succ']
    congr 1
    omega
  rw [hY, Nat.mul_assoc, Nat.mul_add_mod]

theorem bytesToNat_intToBytes :
    ∀ len n, n < 256 ^ len → bytesToNat (intToBytes len n) = n := by
  intro len
  induction len with
  | zero =>
    intro n hn
    have hn0 : n = 0 := by
      have h1 : n < 1 := by simpa using hn
      omega
    subst hn0
    rfl
  | succ len ih =>
    intro n hn
    rw [intToBytes_succ, bytesToNat_cons, intToBytes_length]
    rw [ih (n % 256 ^ len) (Nat.mod_lt n (pow_pos (by norm_num) len))]
    have hdivlt : n / 256 ^ len < 256 := by
      rw [Nat.div_lt_iff_lt_mul (pow_pos (by norm_num) len)]
      have hps : (256 : Nat) ^ (len + 1) = 256 * 256 ^ len := by rw [pow_succ]; ring
      omega
    rw [Nat.mod_eq_of_lt hdivlt, Nat.mul_comm (n / 256 ^ len) (256 ^ len)]
    exact Nat.div_add_mod n (256 ^ len)

theorem bytesToNat_lt_of_bytes :
    ∀ bs : List Nat, (∀ x ∈ bs, x < 256) → bytesToNat bs < 256 ^ bs.length := by
  intro bs
  induction bs with
  | nil => intro _; simp [bytesToNat]
  | cons b bs ih =>
    intro hb
    rw [bytesToNat_cons, List.length_cons]
    have h1 := ih (fun x hx => hb x (List.mem_cons_of_mem _ hx))
    have h2 : b < 256 := hb b (List.mem_cons_self _ _)
    calc b * 256 ^ bs.length + bytesToNat bs
        < b * 256 ^ bs.length + 256 ^ bs.length := Nat.add_lt_add_left h1 _
      _ = (b + 1) * 256 ^ bs.length := by ring
      _ ≤ 256 * 256 ^ bs.length := mul_le_mul_right' (by omega) _
      _ = 256 ^ (bs.length + 1) := by rw [pow_succ]; ring

theorem standardizeIP_bytes_lt (ip : List Nat) (h : ∀ x ∈ ip, x < 256) :
    ∀ x ∈ (standardizeIP ip).getD [], x < 256 := by
  by_cases h4 : ip.length = 4
  · have hto4 : to4 ip = some ip := by
      unfold to4
      rw [if_pos h4]
    have hstd : standardizeIP ip = some ip := by
      unfold standardizeIP
      rw [hto4]
    rw [hstd]
    exact h
  · by_cases hc : ip.length = 16 ∧ isZeros (ip.take 10) ∧ ip.getD 10 0 = 255 ∧
        ip.getD 11 0 = 255
    · have hto4 : to4 ip = some (ip.drop 12) := by
        unfold to4
        rw [if_neg h4, if_pos hc]
      have hstd : standardizeIP ip = some (ip.drop 12) := by
        unfold standardizeIP
        rw [hto4]
      rw [hstd]
      intro x hx
      exact h x (List.mem_of_mem_drop hx)
    · have hto4 : to4 ip = none := by
        unfold to4
        rw [if_neg h4, if_neg hc]
      have hstd : standardizeIP ip = to16 ip := by
        unfold standardizeIP
        rw [hto4]
      rw [hstd]
      unfold to16
      rw [if_neg h4]
      by_cases h16 : ip.length = 16
      · rw [if_pos h16]
        exact h
      · rw [if_neg h16]
        intro x hx
        exact absurd hx (List.not_mem_nil x)

theorem isTiling_mem_ub {w e : Nat} :
    ∀ l s, isTiling w s e l → ∀ blk ∈ l, blk.1 + 2 ^ (w - blk.2) - 1 ≤ e := by
  intro l
  induction l with
  | nil => intro s _ blk hblk; cases hblk
  | cons hd rest ih =>
    intro s hT blk hblk
    obtain ⟨b, p⟩ := hd
    obtain ⟨hb, -, -, -, hlast, hrest⟩ := hT
    rcases List.mem_cons.mp hblk with hEq | hmem
    · subst hEq
      show b + 2 ^ (w - p) - 1 ≤ e
      rw [hb]
      exact hlast
    · exact ih _ hrest blk hmem

/-- Reduction of `Range2CIDRs` on two present (non-`nil`) inputs. -/
theorem range2cidrs_some_some (sIn eIn : List Nat) :
    Range2CIDRs (some sIn) (some eIn) =
      if ipLen (standardizeIP sIn) ≠ ipLen (standardizeIP eIn) then
        Except.error Err.familyMismatch
      else if setBytesOpt (standardizeIP eIn) < setBytesOpt (standardizeIP sIn) then
        Except.error Err.invertedRange
      else
        Except.ok (rangeBlocks (ipLen (standardizeIP sIn) * 8)
          (setBytesOpt (standardizeIP sIn)) (setBytesOpt (standardizeIP eIn))) := rfl

/-! The claims. -/

/-- C1: the spec states that decomposing the whole address space (start all
zero, end all ones) yields the single block with prefix length 0, i.e.
`0.0.0.0`-`255.255.255.255` gives `[0.0.0.0/0]`.  The code does not: its
exponent search `for i := 0; i < maxLen; i++` never considers `i = maxLen`,
so on the whole IPv4 space it returns the two blocks `0.0.0.0/1` and
`128.0.0.0/1` instead of `0.0.0.0/0`. -/
theorem C1_whole_space_eval :
    Range2CIDRs (some [0, 0, 0, 0]) (some [255, 255, 255, 255]) =
      Except.ok [(0, 1), (2147483648, 1)] := rfl

/-- C2: for every successful decomposition, the union of the output blocks'
address sets is exactly the closed interval from the standardized start to
the standardized end (no gaps), and the blocks are pairwise disjoint (no
overlaps). -/
theorem C2_coverage_exact (sIn eIn : List Nat) (bs : List (Nat × Nat))
    (h : Range2CIDRs (some sIn) (some eIn) = Except.ok bs) :
    (∀ a : Nat, (∃ blk ∈ bs, inBlock (ipLen (standardizeIP sIn) * 8) blk a) ↔
      (setBytesOpt (standardizeIP sIn) ≤ a ∧ a ≤ setBytesOpt (standardizeIP eIn))) ∧
    List.Pairwise (noOverlap (ipLen (standardizeIP sIn) * 8)) bs := by
  obtain ⟨hlen, hle, hbs⟩ := range2cidrs_ok_inv h
  subst hbs
  have hT := rangeBlocks_tiling (setBytesOpt (standardizeIP eIn) + 1)
    (ipLen (standardizeIP sIn) * 8) (setBytesOpt (standardizeIP sIn))
    (setBytesOpt (standardizeIP eIn)) (by omega)
  exact ⟨isTiling_cover _ _ hT, isTiling_disjoint _ _ hT⟩

/-- C2 witness: the decomposition of `192.168.1.0`-`192.168.2.255` succeeds
with two /24 blocks, and coverage and disjointness hold for them. -/
theorem C2_coverage_exact_witness :
    Range2CIDRs (some [192, 168, 1, 0]) (some [192, 168, 2, 255]) =
      Except.ok [(3232235776, 24), (3232236032, 24)] ∧
    ((∀ a : Nat,
        (∃ blk ∈ [((3232235776 : Nat), (24 : Nat)), (3232236032, 24)],
          inBlock (ipLen (standardizeIP [192, 168, 1, 0]) * 8) blk a) ↔
        (setBytesOpt (standardizeIP [192, 168, 1, 0]) ≤ a ∧
          a ≤ setBytesOpt (standardizeIP [192, 168, 2, 255]))) ∧
      List.Pairwise (noOverlap (ipLen (standardizeIP [192, 168, 1, 0]) * 8))
        [(3232235776, 24), (3232236032, 24)]) :=
  ⟨rfl, C2_coverage_exact [192, 168, 1, 0] [192, 168, 2, 255]
    [(3232235776, 24), (3232236032, 24)] rfl⟩

/-- C3: the spec states the block count always equals the theoretical
minimum (no two adjacent output blocks merge into one valid CIDR block).
On the whole IPv4 space the code emits 2 blocks, yet the single aligned
block `(0, 0)` (that is `0.0.0.0/0`, the merge of the two emitted /1
blocks) covers exactly the same interval, so the minimum is 1 and the
claim fails there. -/
theorem C3_whole_space_not_minimal :
    (rangeBlocks 32 0 (2 ^ 32 - 1)).length = 2 ∧
    (∀ a : Nat, inBlock 32 ((0, 0) : Nat × Nat) a ↔ a ≤ 2 ^ 32 - 1) := by
  refine ⟨rfl, fun a => ?_⟩
  simp only [inBlock, blockLast]
  norm_num

/-- C4: the blocks of every successful decomposition are strictly ascending
by network address. -/
theorem C4_strictly_ascending (sIn eIn : List Nat) (bs : List (Nat × Nat))
    (h : Range2CIDRs (some sIn) (some eIn) = Except.ok bs) :
    List.Pairwise (fun x y : Nat × Nat => x.1 < y.1) bs := by
  obtain ⟨-, hle, hbs⟩ := range2cidrs_ok_inv h
  subst hbs
  exact isTiling_ascending _ _ (rangeBlocks_tiling (setBytesOpt (standardizeIP eIn) + 1)
    (ipLen (standardizeIP sIn) * 8) (setBytesOpt (standardizeIP sIn))
    (setBytesOpt (standardizeIP eIn)) (by omega))

/-- C4 witness: the two /24 blocks for `192.168.1.0`-`192.168.2.255` are
strictly ascending. -/
theorem C4_strictly_ascending_witness :
    Range2CIDRs (some [192, 168, 1, 0]) (some [192, 168, 2, 255]) =
      Except.ok [(3232235776, 24), (3232236032, 24)] ∧
    List.Pairwise (fun x y : Nat × Nat => x.1 < y.1)
      [((3232235776 : Nat), (24 : Nat)), (3232236032, 24)] :=
  ⟨rfl, C4_strictly_ascending [192, 168, 1, 0] [192, 168, 2, 255]
    [(3232235776, 24), (3232236032, 24)] rfl⟩

/-- C5: every block of a successful decomposition has a prefix length at
most the width and a network address that is a multiple of the block size:
`networkAddress mod 2^(width - prefixLength) = 0`. -/
theorem C5_alignment (sIn eIn : List Nat) (bs : List (Nat × Nat))
    (h : Range2CIDRs (some sIn) (some eIn) = Except.ok bs) :
    ∀ blk ∈ bs, blk.2 ≤ ipLen (standardizeIP sIn) * 8 ∧
      blk.1 % 2 ^ (ipLen (standardizeIP sIn) * 8 - blk.2) = 0 := by
  obtain ⟨-, hle, hbs⟩ := range2cidrs_ok_inv h
  subst hbs
  intro blk hmem
  have hT := rangeBlocks_tiling (setBytesOpt (standardizeIP eIn) + 1)
    (ipLen (standardizeIP sIn) * 8) (setBytesOpt (standardizeIP sIn))
    (setBytesOpt (standardizeIP eIn)) (by omega)
  obtain ⟨h1, -, h3⟩ := isTiling_aligned _ _ hT blk hmem
  exact ⟨h1, Nat.dvd_iff_mod_eq_zero.mp h3⟩

/-- C5 witness: both /24 blocks for `192.168.1.0`-`192.168.2.255` satisfy
the alignment rule. -/
theorem C5_alignment_witness :
    Range2CIDRs (some [192, 168, 1, 0]) (some [192, 168, 2, 255]) =
      Except.ok [(3232235776, 24), (3232236032, 24)] ∧
    (∀ blk ∈ [((3232235776 : Nat), (24 : Nat)), (3232236032, 24)],
      blk.2 ≤ ipLen (standardizeIP [192, 168, 1, 0]) * 8 ∧
        blk.1 % 2 ^ (ipLen (standardizeIP [192, 168, 1, 0]) * 8 - blk.2) = 0) :=
  ⟨rfl, C5_alignment [192, 168, 1, 0] [192, 168, 2, 255]
    [(3232235776, 24), (3232236032, 24)] rfl⟩

/-- C6 counterexample: two addresses of the same input width (16 bytes)
whose start is numerically greater than the end, for which the code fails
with FamilyMismatch rather than InvertedRange: the start is the IPv4-mapped
address `::ffff:1.2.3.4`, which `standardizeIP` shortens to 4 bytes, while
the end `::1` stays 16 bytes wide. -/
theorem C6_counterexample :
    ([0, 0, 0, 0, 0, 0, 0, 0, 0, 0, 255, 255, 1, 2, 3, 4] : List Nat).length =
      ([0, 0, 0, 0, 0, 0, 0, 0, 0, 0, 0, 0, 0, 0, 0, 1] : List Nat).length ∧
    bytesToNat [0, 0, 0, 0, 0, 0, 0, 0, 0, 0, 0, 0, 0, 0, 0, 1] <
      bytesToNat [0, 0, 0, 0, 0, 0, 0, 0, 0, 0, 255, 255, 1, 2, 3, 4] ∧
    Range2CIDRs (some [0, 0, 0, 0, 0, 0, 0, 0, 0, 0, 255, 255, 1, 2, 3, 4])
        (some [0, 0, 0, 0, 0, 0, 0, 0, 0, 0, 0, 0, 0, 0, 0, 1]) =
      Except.error Err.familyMismatch ∧
    Range2CIDRs (some [0, 0, 0, 0, 0, 0, 0, 0, 0, 0, 255, 255, 1, 2, 3, 4])
        (some [0, 0, 0, 0, 0, 0, 0, 0, 0, 0, 0, 0, 0, 0, 0, 1]) ≠
      Except.error Err.invertedRange := by
  refine ⟨rfl, by decide, rfl, ?_⟩
  intro hc
  have hEq : Range2CIDRs (some [0, 0, 0, 0, 0, 0, 0, 0, 0, 0, 255, 255, 1, 2, 3, 4])
      (some [0, 0, 0, 0, 0, 0, 0, 0, 0, 0, 0, 0, 0, 0, 0, 1]) =
      Except.error Err.familyMismatch := rfl
  rw [hEq] at hc
  exact absurd (Except.error.inj hc) (by decide)

/-- C6 (amended): for inputs whose standardized forms have equal width, the
decomposition fails with InvertedRange exactly when the standardized start
exceeds the standardized end, and a successful run implies start at most
end (so no block list is ever produced for an inverted range). -/
theorem C6_inverted_iff (sIn eIn : List Nat)
    (hlen : ipLen (standardizeIP sIn) = ipLen (standardizeIP eIn)) :
    (Range2CIDRs (some sIn) (some eIn) = Except.error Err.invertedRange ↔
      setBytesOpt (standardizeIP eIn) < setBytesOpt (standardizeIP sIn)) ∧
    (∀ bs, Range2CIDRs (some sIn) (some eIn) = Except.ok bs →
      setBytesOpt (standardizeIP sIn) ≤ setBytesOpt (standardizeIP eIn)) := by
  rw [range2cidrs_some_some, if_neg (by simp [hlen])]
  by_cases hcmp : setBytesOpt (standardizeIP eIn) < setBytesOpt (standardizeIP sIn)
  · rw [if_pos hcmp]
    exact ⟨⟨fun _ => hcmp, fun _ => rfl⟩, fun bs h => Except.noConfusion h⟩
  · rw [if_neg hcmp]
    exact ⟨⟨fun h => Except.noConfusion h, fun h => absurd h hcmp⟩, fun bs _ => by omega⟩

/-- C6 witness: `10.0.0.5`-`10.0.0.1` has equal standardized widths, and the
amended characterization applies: this inverted range gives exactly the
InvertedRange error. -/
theorem C6_inverted_iff_witness :
    ipLen (standardizeIP [10, 0, 0, 5]) = ipLen (standardizeIP [10, 0, 0, 1]) ∧
    ((Range2CIDRs (some [10, 0, 0, 5]) (some [10, 0, 0, 1]) =
        Except.error Err.invertedRange ↔
      setBytesOpt (standardizeIP [10, 0, 0, 1]) < setBytesOpt (standardizeIP [10, 0, 0, 5])) ∧
    (∀ bs, Range2CIDRs (some [10, 0, 0, 5]) (some [10, 0, 0, 1]) = Except.ok bs →
      setBytesOpt (standardizeIP [10, 0, 0, 5]) ≤ setBytesOpt (standardizeIP [10, 0, 0, 1]))) :=
  ⟨rfl, C6_inverted_iff [10, 0, 0, 5] [10, 0, 0, 1] rfl⟩

/-- C7: whenever the two standardized addresses have different widths (in
particular an IPv4 start with a genuine IPv6 end), the decomposition fails
with the FamilyMismatch error. -/
theorem C7_family_mismatch (sIn eIn : List Nat)
    (hlen : ipLen (standardizeIP sIn) ≠ ipLen (standardizeIP eIn)) :
    Range2CIDRs (some sIn) (some eIn) = Except.error Err.familyMismatch := by
  rw [range2cidrs_some_some, if_pos hlen]

/-- C7 witness: the IPv4 start `192.168.1.0` with the IPv6 end `::1`
standardize to widths 4 and 16 and give FamilyMismatch. -/
theorem C7_family_mismatch_witness :
    ipLen (standardizeIP [192, 168, 1, 0]) ≠
      ipLen (standardizeIP [0, 0, 0, 0, 0, 0, 0, 0, 0, 0, 0, 0, 0, 0, 0, 1]) ∧
    Range2CIDRs (some [192, 168, 1, 0])
        (some [0, 0, 0, 0, 0, 0, 0, 0, 0, 0, 0, 0, 0, 0, 0, 1]) =
      Except.error Err.familyMismatch :=
  ⟨by decide, C7_family_mismatch [192, 168, 1, 0]
    [0, 0, 0, 0, 0, 0, 0, 0, 0, 0, 0, 0, 0, 0, 0, 1] (by decide)⟩

/-- C8 counterexample: a present but unnormalizable address (5 bytes) does
not give the InvalidInput error; with both inputs unnormalizable the
function even returns a (degenerate) block list successfully. -/
theorem C8_counterexample :
    standardizeIP [0, 0, 0, 0, 0] = none ∧
    Range2CIDRs (some [0, 0, 0, 0, 0]) (some [0, 0, 0, 0, 0]) =
      Except.ok [(0, 0)] :=
  ⟨rfl, rfl⟩

/-- C8 (amended): the InvalidInput error occurs exactly when one of the two
arguments is absent (Go `nil`); a present address that cannot be normalized
is treated as width 0 instead, leading to FamilyMismatch or even a
degenerate success. -/
theorem C8_invalid_iff_nil (sO eO : Option (List Nat)) :
    Range2CIDRs sO eO = Except.error Err.invalidInput ↔ (sO = none ∨ eO = none) := by
  cases sO with
  | none =>
    cases eO with
    | none => exact ⟨fun _ => Or.inl rfl, fun _ => rfl⟩
    | some e => exact ⟨fun _ => Or.inl rfl, fun _ => rfl⟩
  | some s =>
    cases eO with
    | none => exact ⟨fun _ => Or.inr rfl, fun _ => rfl⟩
    | some e =>
      rw [range2cidrs_some_some]
      constructor
      · intro h
        by_cases h1 : ipLen (standardizeIP s) ≠ ipLen (standardizeIP e)
        · rw [if_pos h1] at h
          exact absurd (Except.error.inj h) (by decide)
        · rw [if_neg h1] at h
          by_cases h2 : setBytesOpt (standardizeIP e) < setBytesOpt (standardizeIP s)
          · rw [if_pos h2] at h
            exact absurd (Except.error.inj h) (by decide)
          · rw [if_neg h2] at h
            exact Except.noConfusion h
      · rintro (h | h) <;> exact Option.noConfusion h

/-- C9 counterexample: re-decomposition through the full function is not
idempotent.  Decomposing the width-128 range `::fffe:ffff:ffff`-`::1:0:0:0`
(values `2^48 - 2^32 - 1` to `2^48`) emits the block
`(::ffff:0.0.0.0, /96)`.  That block's network and last addresses, encoded
back to 16 bytes as the Go code produces them, are IPv4-mapped, so the
re-decomposition standardizes them to 4 bytes and returns
`[0.0.0.0/1, 128.0.0.0/1]` instead of the single /96 block. -/
theorem C9_counterexample :
    Range2CIDRs (some [0, 0, 0, 0, 0, 0, 0, 0, 0, 0, 255, 254, 255, 255, 255, 255])
        (some [0, 0, 0, 0, 0, 0, 0, 0, 0, 1, 0, 0, 0, 0, 0, 0]) =
      Except.ok [(281470681743359, 128), (281470681743360, 96), (281474976710656, 128)] ∧
    ((281470681743360, 96) : Nat × Nat) ∈
      [((281470681743359 : Nat), (128 : Nat)), (281470681743360, 96),
        (281474976710656, 128)] ∧
    (281470681743360 : Nat) ||| (2 ^ (128 - 96) - 1) = 281474976710655 ∧
    intToBytes 16 281470681743360 =
      [0, 0, 0, 0, 0, 0, 0, 0, 0, 0, 255, 255, 0, 0, 0, 0] ∧
    intToBytes 16 281474976710655 =
      [0, 0, 0, 0, 0, 0, 0, 0, 0, 0, 255, 255, 255, 255, 255, 255] ∧
    Range2CIDRs (some [0, 0, 0, 0, 0, 0, 0, 0, 0, 0, 255, 255, 0, 0, 0, 0])
        (some [0, 0, 0, 0, 0, 0, 0, 0, 0, 0, 255, 255, 255, 255, 255, 255]) =
      Except.ok [(0, 1), (2147483648, 1)] ∧
    Range2CIDRs (some [0, 0, 0, 0, 0, 0, 0, 0, 0, 0, 255, 255, 0, 0, 0, 0])
        (some [0, 0, 0, 0, 0, 0, 0, 0, 0, 0, 255, 255, 255, 255, 255, 255]) ≠
      Except.ok [((281470681743360 : Nat), (96 : Nat))] := by
  refine ⟨rfl, by decide, by decide, rfl, rfl, rfl, ?_⟩
  intro hc
  have hEq : Range2CIDRs (some [0, 0, 0, 0, 0, 0, 0, 0, 0, 0, 255, 255, 0, 0, 0, 0])
      (some [0, 0, 0, 0, 0, 0, 0, 0, 0, 0, 255, 255, 255, 255, 255, 255]) =
      Except.ok [((0 : Nat), (1 : Nat)), (2147483648, 1)] := rfl
  rw [hEq] at hc
  exact absurd (Except.ok.inj hc) (by decide)

/-- C9 (amended): re-decomposition is idempotent up to re-standardization:
for every block `(b, p)` of a successful run (whose end address consists of
genuine bytes below 256, Go's `[]byte` invariant), decomposing the block's
own network and last addresses, re-encoded at the original standardized
width, returns exactly `[(b, p)]` — provided both re-encoded addresses
standardize to themselves (which fails only for IPv4-mapped 16-byte
addresses, as in the counterexample). -/
theorem C9_idempotent_std (sIn eIn : List Nat) (bs : List (Nat × Nat)) (b p : Nat)
    (h : Range2CIDRs (some sIn) (some eIn) = Except.ok bs)
    (hbytes : ∀ x ∈ eIn, x < 256)
    (hmem : (b, p) ∈ bs)
    (hstdb : standardizeIP (intToBytes (ipLen (standardizeIP sIn)) b) =
      some (intToBytes (ipLen (standardizeIP sIn)) b))
    (hstdl : standardizeIP (intToBytes (ipLen (standardizeIP sIn))
        (b ||| (2 ^ (ipLen (standardizeIP sIn) * 8 - p) - 1))) =
      some (intToBytes (ipLen (standardizeIP sIn))
        (b ||| (2 ^ (ipLen (standardizeIP sIn) * 8 - p) - 1)))) :
    Range2CIDRs (some (intToBytes (ipLen (standardizeIP sIn)) b))
        (some (intToBytes (ipLen (standardizeIP sIn))
          (b ||| (2 ^ (ipLen (standardizeIP sIn) * 8 - p) - 1)))) =
      Except.ok [(b, p)] := by
  obtain ⟨hlen, hle, hbs⟩ := range2cidrs_ok_inv h
  subst hbs
  set L := ipLen (standardizeIP sIn) with hL
  have hT := rangeBlocks_tiling (setBytesOpt (standardizeIP eIn) + 1) (L * 8)
    (setBytesOpt (standardizeIP sIn)) (setBytesOpt (standardizeIP eIn)) (by omega)
  obtain ⟨hpw, hp1, hdvd⟩ := isTiling_aligned _ _ hT (b, p) hmem
  have hub := isTiling_mem_ub _ _ hT (b, p) hmem
  have hP := Nat.two_pow_pos (L * 8 - p)
  have hlor : b ||| (2 ^ (L * 8 - p) - 1) = b + (2 ^ (L * 8 - p) - 1) :=
    lor_mask_eq hdvd
  have hevlt : setBytesOpt (standardizeIP eIn) < 256 ^ L := by
    have h1 := bytesToNat_lt_of_bytes ((standardizeIP eIn).getD [])
      (standardizeIP_bytes_lt eIn hbytes)
    have h2 : setBytesOpt (standardizeIP eIn) <
        256 ^ ipLen (standardizeIP eIn) := h1
    rw [hlen]
    exact h2
  rw [pow256_eq_two_pow] at hevlt
  have hblt : b + (2 ^ (L * 8 - p) - 1) < 2 ^ (L * 8) := by
    have hub2 : b + 2 ^ (L * 8 - p) - 1 ≤ setBytesOpt (standardizeIP eIn) := hub
    omega
  have hrb : bytesToNat (intToBytes L b) = b :=
    bytesToNat_intToBytes L b (by rw [pow256_eq_two_pow]; omega)
  have hrl : bytesToNat (intToBytes L (b ||| (2 ^ (L * 8 - p) - 1))) =
      b ||| (2 ^ (L * 8 - p) - 1) :=
    bytesToNat_intToBytes L _ (by rw [pow256_eq_two_pow, hlor]; omega)
  rw [range2cidrs_some_some, hstdb, hstdl]
  simp only [ipLen_some, setBytesOpt_some, intToBytes_length]
  rw [hrb, hrl]
  rw [if_neg (show ¬ L ≠ L from fun hc => hc rfl)]
  rw [if_neg (show ¬ (b ||| (2 ^ (L * 8 - p) - 1)) < b from by rw [hlor]; omega)]
  have hk : L * 8 - p < L * 8 ∨ (L * 8 - p = 0 ∧ L * 8 = 0) := by
    rcases hp1 with h0 | h1
    · right; omega
    · left; omega
  rw [rangeBlocks_single hk hdvd, show L * 8 - (L * 8 - p) = p from by omega]

/-- C9 witness: re-decomposing the first /24 block of the
`192.168.1.0`-`192.168.2.255` run through the full function yields exactly
that block again. -/
theorem C9_idempotent_std_witness :
    Range2CIDRs (some [192, 168, 1, 0]) (some [192, 168, 2, 255]) =
      Except.ok [(3232235776, 24), (3232236032, 24)] ∧
    (∀ x ∈ [(192 : Nat), 168, 2, 255], x < 256) ∧
    ((3232235776, 24) : Nat × Nat) ∈
      [((3232235776 : Nat), (24 : Nat)), (3232236032, 24)] ∧
    standardizeIP (intToBytes (ipLen (standardizeIP [192, 168, 1, 0])) 3232235776) =
      some (intToBytes (ipLen (standardizeIP [192, 168, 1, 0])) 3232235776) ∧
    standardizeIP (intToBytes (ipLen (standardizeIP [192, 168, 1, 0]))
        ((3232235776 : Nat) |||
          (2 ^ (ipLen (standardizeIP [192, 168, 1, 0]) * 8 - 24) - 1))) =
      some (intToBytes (ipLen (standardizeIP [192, 168, 1, 0]))
        ((3232235776 : Nat) |||
          (2 ^ (ipLen (standardizeIP [192, 168, 1, 0]) * 8 - 24) - 1))) ∧
    Range2CIDRs
        (some (intToBytes (ipLen (standardizeIP [192, 168, 1, 0])) 3232235776))
        (some (intToBytes (ipLen (standardizeIP [192, 168, 1, 0]))
          ((3232235776 : Nat) |||
            (2 ^ (ipLen (standardizeIP [192, 168, 1, 0]) * 8 - 24) - 1)))) =
      Except.ok [(3232235776, 24)] :=
  ⟨rfl, by decide, by decide, rfl, rfl,
    C9_idempotent_std [192, 168, 1, 0] [192, 168, 2, 255]
      [(3232235776, 24), (3232236032, 24)] 3232235776 24 rfl (by decide)
      (by decide) rfl rfl⟩

/-- C10 counterexample: the range `0.0.0.1`-`255.255.255.254` needs 62
blocks, exceeding the claimed bound of `width = 32` blocks. -/
theorem C10_counterexample : ¬ (rangeBlocks 32 1 (2 ^ 32 - 2)).length ≤ 32 := by
  decide

/-- C10 (amended): for every valid range at positive width `w` with
`end < 2^w` the main loop terminates — any iteration budget of at least
`end + 1 - start` yields the same block list — and the number of blocks is
at most `2*w` (not `w`: unaligned ranges can need up to `2*(w-1)` blocks). -/
theorem C10_terminates_block_bound (w s e : Nat) (hw : 1 ≤ w) (hse : s ≤ e)
    (hew : e < 2 ^ w) :
    (∀ fuel, e + 1 - s ≤ fuel → loopAux fuel w s e = rangeBlocks w s e) ∧
    (rangeBlocks w s e).length ≤ 2 * w := by
  constructor
  · intro fuel hf
    exact loopAux_fuel_irrel fuel (e + 1 - s) w s e hf (le_refl _)
  · have hd0 : (2 : Nat) ^ 0 ∣ s := by norm_num
    have := length_le_main (e + 1 - s) w s e 0 (le_refl _) hse hew hd0 hw
    omega

/-- C10 witness: the range 1-2 at width 32: the loop is budget-insensitive
from budget 2 on and emits at most 64 blocks (it emits 2). -/
theorem C10_terminates_block_bound_witness :
    (1 : Nat) ≤ 32 ∧ (1 : Nat) ≤ 2 ∧ (2 : Nat) < 2 ^ 32 ∧
    ((∀ fuel, 2 + 1 - 1 ≤ fuel → loopAux fuel 32 1 2 = rangeBlocks 32 1 2) ∧
      (rangeBlocks 32 1 2).length ≤ 2 * 32) :=
  ⟨by decide, by decide, by decide,
    C10_terminates_block_bound 32 1 2 (by decide) (by decide) (by decide)⟩

end Range2Cidr
